import Mathlib

/-
Verification development for the `mapped` repository: a pixel-recoloring
pipeline that maps every RGBA pixel of an image onto a fixed palette under a
choice of mapping strategies, with chunked parallel dispatch and an optional
memoization cache.

Embedding conventions:
* `u8` channel values are modeled as `Nat`; where wrapping could matter
  (the `i16` arithmetic of `diff_rating`) the machine arithmetic is made
  explicit with `% 65536` recentering (`wrap16`).
* `f32` Euclidean distances: the source computes `sqrt` in `f32` and compares
  results only with `total_cmp`.  For channel values below 256 the squared
  distance is an integer at most 3 * 255^2 = 195075, so the exact square roots
  of distinct squared distances differ by at least 1/(2*sqrt(195075)) > 1.1e-3,
  while an IEEE correctly rounded `f32` sqrt below 512 carries an absolute
  error of at most 2^-16 < 1.6e-5; hence `total_cmp` on the rounded square
  roots coincides with the `Nat` order on the squared distances.  Distances
  are therefore embedded as squared `Nat` values.
* Fallible code (panicking `unwrap`s, panicking slice indexing) is modeled
  with `Option`; `none` is a panic.
* The per-process hash seed of `AHashMap` (iteration order) and `fastrand`
  are modeled by explicit index parameters; over all parameter values the
  reachable results coincide with the reachable results of the source.
-/

/-- ColorClass (src/palette.rs): closed enumeration of semantic color buckets. -/
inductive ColorClass where
  | Blues
  | Whites
  | Greys
  | Red
  | Purple
  | Green
  | Yellow
  | Orange
deriving DecidableEq, Repr

/-- ColorClass::weight (src/palette.rs): every class currently has weight 0. -/
def ColorClass.weight : ColorClass → Nat
  | .Blues => 0
  | .Whites => 0
  | .Greys => 0
  | .Red => 0
  | .Purple => 0
  | .Green => 0
  | .Yellow => 0
  | .Orange => 0

/-- Rgbx (src/palette.rs): palette entry `(red, green, blue, class)`. -/
structure Rgbx where
  r : Nat
  g : Nat
  b : Nat
  group : ColorClass
deriving DecidableEq, Repr

/-- A raw 4-byte RGBA pixel (`[u8; 4]` in the source). -/
structure Rgba where
  r : Nat
  g : Nat
  b : Nat
  a : Nat
deriving DecidableEq, Repr

/-- The four bytes of a pixel in buffer order. -/
def Rgba.toBytes (p : Rgba) : List Nat := [p.r, p.g, p.b, p.a]

/-- Rgbx::rgba_array (src/palette.rs): the RGB fields plus a hardcoded 255 alpha. -/
def Rgbx.rgba_array (p : Rgbx) : Rgba := ⟨p.r, p.g, p.b, 255⟩

/-- Rgbx::manhattan_dist (src/palette.rs): sum of absolute channel differences.
The source computes in `u16`, which is exact here (the sum is at most 765). -/
def Rgbx.manhattan_dist (p : Rgbx) (v : Rgba) : Nat :=
  Nat.dist p.r v.r + Nat.dist p.g v.g + Nat.dist p.b v.b

/-- Rgbx::euclidian_dist (src/palette.rs), embedded as the exact squared
distance; see the header comment for why every `total_cmp` comparison of the
`f32` square roots in the source agrees with the `Nat` order on these values. -/
def Rgbx.euclidian_dist_sq (p : Rgbx) (v : Rgba) : Nat :=
  Nat.dist p.r v.r ^ 2 + Nat.dist p.g v.g ^ 2 + Nat.dist p.b v.b ^ 2

/-- Two's-complement wrap into the `i16` range, recentered. -/
def wrap16 (z : Int) : Int := (z + 32768) % 65536 - 32768

/-- Rgbx::diff_rating (src/palette.rs:33-37):
`(self.0 as i16 - rgb_val[0] as i16) + (self.1 as i16 - rgb_val[1] as i16)
 + (self.2 as i16 - rgb_val[2] as i16) / 3`
with every `i16` operation wrapped explicitly; `/` on `i16` truncates toward
zero, i.e. `Int.tdiv`. -/
def Rgbx.diff_rating (p : Rgbx) (v : Rgba) : Int :=
  wrap16 (wrap16 (wrap16 ((p.r : Int) - (v.r : Int)) + wrap16 ((p.g : Int) - (v.g : Int)))
    + Int.tdiv (wrap16 ((p.b : Int) - (v.b : Int))) 3)

/-- Rust's `Iterator::min_by_key` / `min_by`: the first minimal element
(`None` on an empty iterator). -/
def minByKeyFirst {α β : Type} [LinearOrder β] (key : α → β) : List α → Option α
  | [] => none
  | x :: xs =>
    match minByKeyFirst key xs with
    | none => some x
    | some m => if key m < key x then some m else some x

/-- Rust's `Iterator::max_by_key` / `max_by`: the last maximal element
(`None` on an empty iterator). -/
def maxByKeyLast {α β : Type} [LinearOrder β] (key : α → β) : List α → Option α
  | [] => none
  | x :: xs =>
    match maxByKeyLast key xs with
    | none => some x
    | some m => if key m < key x then some x else some m

/-- Nearest::predict (src/mappers.rs:12-19): palette entry minimizing Manhattan
distance, ties to the first encountered; `none` models the `unwrap` panic on an
empty palette. -/
def Nearest.predict (palette : List Rgbx) (pixel : Rgba) : Option Rgba :=
  (minByKeyFirst (fun pal => pal.manhattan_dist pixel) palette).map Rgbx.rgba_array

/-- Creative::predict (src/mappers.rs:40-61).  The source enumerates indices and
indexes back into the palette; the embedding carries the palette entry itself in
place of its index, which is observationally the same. -/
def Creative.predict (palette : List Rgbx) (pixel : Rgba) : Rgba :=
  let distances := palette.map (fun target => (target, target.diff_rating pixel))
  let pos := minByKeyFirst (fun x => x.2) (distances.filter (fun x => decide (0 ≤ x.2)))
  let neg := maxByKeyLast (fun x => x.2) (distances.filter (fun x => decide (x.2 ≤ 0)))
  match pos, neg with
  | none, none => pixel
  | some p, some n => if -n.2 < p.2 then n.1.rgba_array else p.1.rgba_array
  | some p, none => p.1.rgba_array
  | none, some n => n.1.rgba_array

/-- Stable insertion of a rating into a sorted list of ratings (by distance). -/
def insertByDist (x : Nat × ColorClass) : List (Nat × ColorClass) → List (Nat × ColorClass)
  | [] => [x]
  | y :: ys => if y.1 ≤ x.1 then y :: insertByDist x ys else x :: y :: ys

/-- `slice::sort_by` with `total_cmp` on the distances: a stable sort, modeled
as left-to-right insertion (equal distances keep their original order). -/
def sortByDist (l : List (Nat × ColorClass)) : List (Nat × ColorClass) :=
  l.foldl (fun acc x => insertByDist x acc) []

/-- The distinct classes of a voting slice in first-appearance order: the key
set of the source's `vote_map` (its iteration order is seed-dependent; the
places where that order is observable take explicit index parameters). -/
def voteKeys (l : List ColorClass) : List ColorClass :=
  l.foldl (fun acc g => if g ∈ acc then acc else acc ++ [g]) []

/-- Winner selection of Knn::classify over the vote map, parameterized by the
per-class raw stored count (`v`), the per-class score used by `max_by_key`, and
two indices: `leaderIdx` resolves which maximal-score class `max_by_key`
returns (AHashMap iteration order), `rngIdx` resolves `fastrand::usize` over
the candidate pool.  `candidates` collects classes whose raw count equals the
leader's score and that differ from the leader, exactly as in the source. -/
def voteSelect (raw score : ColorClass → Nat) (keys : List ColorClass)
    (random : Bool) (leaderIdx rngIdx : Nat) : ColorClass :=
  let argmax := keys.filter (fun g => keys.all (fun g' => decide (score g' ≤ score g)))
  let leader := argmax.getD (leaderIdx % argmax.length) ColorClass.Blues
  if random then
    let candidates := keys.filter (fun g => decide (raw g = score leader) && decide (g ≠ leader))
    if candidates.isEmpty then leader
    else candidates.getD (rngIdx % candidates.length) ColorClass.Blues
  else leader

/-- Knn (src/mappers.rs): the k-nearest-neighbours strategy with its vote count. -/
structure Knn where
  k : Nat
deriving DecidableEq, Repr

/-- `impl Default for Knn` (src/mappers.rs:69-73): `Knn { k: 12 }`. -/
def Knn.default : Knn := ⟨12⟩

/-- Knn::with (src/mappers.rs:76-78). -/
def Knn.with (k : Nat) : Knn := ⟨k⟩

/-- Knn::classify (src/mappers.rs:79-129).  The ratings are sorted stably by
distance; the slice `ratings[..=k]` holds the first `k + 1` entries and panics
(`none`) when `k + 1` exceeds the dataset size.  `vote_map` is built with
`.and_modify(|e| *e += 1).or_insert(0)`, so the stored count of a class is one
less than its number of occurrences in the slice; the weighted mode adds the
per-class weight to the stored count.  Hash-order and rng nondeterminism are
exposed as the two index parameters (see `voteSelect`). -/
def Knn.classify (c : Rgba) (k : Nat) (dataset : List Rgbx)
    (random weighted : Bool) (leaderIdx rngIdx : Nat) : Option ColorClass :=
  let ratings := dataset.map (fun pal => (pal.euclidian_dist_sq c, pal.group))
  let sorted := sortByDist ratings
  if k < sorted.length then
    let classes := (sorted.take (k + 1)).map (fun x => x.2)
    let stored := fun g => classes.count g - 1
    let score := fun g => if weighted then stored g + g.weight else stored g
    some (voteSelect stored score (voteKeys classes) random leaderIdx rngIdx)
  else none

/-- Classification as the specification describes it: voting among exactly the
`m` nearest training entries (by Euclidean distance, after sorting) with true
occurrence counts, with the same tie structure as the source.  This definition
follows the spec's words and exists to be compared against `Knn.classify`. -/
def knnVoteSpec (c : Rgba) (m : Nat) (dataset : List Rgbx)
    (random weighted : Bool) (leaderIdx rngIdx : Nat) : Option ColorClass :=
  let ratings := dataset.map (fun pal => (pal.euclidian_dist_sq c, pal.group))
  let sorted := sortByDist ratings
  if m ≤ sorted.length then
    let classes := (sorted.take m).map (fun x => x.2)
    let realCount := fun g => classes.count g
    let score := fun g => if weighted then realCount g + g.weight else realCount g
    some (voteSelect realCount score (voteKeys classes) random leaderIdx rngIdx)
  else none

/-- Knn::predict (src/mappers.rs:132-144), given the outcome `grp` of the
classification step (which is passed explicitly because `classify` is
randomized): Euclidean-nearest palette entry among the entries of class `grp`;
`none` models the `unwrap` panic when no palette entry has that class. -/
def Knn.predict (palette : List Rgbx) (pixel : Rgba) (grp : ColorClass) : Option Rgba :=
  (minByKeyFirst (fun pal => pal.euclidian_dist_sq pixel)
    (palette.filter (fun pal => decide (pal.group = grp)))).map Rgbx.rgba_array

/-- The NORD palette (src/palette.rs:167-184). -/
def NORD : List Rgbx :=
  [⟨216, 222, 233, .Whites⟩, ⟨229, 233, 240, .Whites⟩, ⟨236, 239, 244, .Whites⟩,
   ⟨143, 188, 187, .Blues⟩, ⟨136, 192, 208, .Blues⟩, ⟨129, 161, 193, .Blues⟩,
   ⟨94, 129, 172, .Blues⟩, ⟨191, 97, 106, .Red⟩, ⟨208, 135, 112, .Orange⟩,
   ⟨235, 203, 139, .Yellow⟩, ⟨163, 190, 140, .Green⟩, ⟨180, 142, 173, .Purple⟩,
   ⟨46, 52, 64, .Greys⟩, ⟨59, 66, 82, .Greys⟩, ⟨67, 76, 94, .Greys⟩,
   ⟨76, 86, 106, .Greys⟩]

/-- ManualMap::predict (src/mappers.rs:150-158): two hardcoded bright-red range
patterns map to `NORD[8]`, everything else passes through unchanged. -/
def ManualMap.predict (_palette : List Rgbx) (pixel : Rgba) : Rgba :=
  if 100 ≤ pixel.r ∧ pixel.r ≤ 255 ∧ pixel.g = 0 ∧ pixel.b = 0 then
    (NORD.getD 8 ⟨0, 0, 0, .Greys⟩).rgba_array
  else if 185 ≤ pixel.r ∧ pixel.r ≤ 255 ∧ pixel.g ≤ 68 ∧ pixel.b ≤ 68 then
    (NORD.getD 8 ⟨0, 0, 0, .Greys⟩).rgba_array
  else pixel

/-- The shared strategy contract `Mapper::predict` (deterministic strategies
are pure functions of palette and pixel). -/
abbrev Mapper : Type := List Rgbx → Rgba → Rgba

/-- The memoization cache (src/memoize.rs): a concurrent map keyed by the raw
4-byte pixel, modeled as an association list (first match wins, insertion
prepends, so a later insert shadows an older binding). -/
abbrev Cache : Type := List (Rgba × Rgba)

/-- DashMap::get on the model. -/
def cacheGet : Cache → Rgba → Option Rgba
  | [], _ => none
  | (key, v) :: rest, px => if key = px then some v else cacheGet rest px

/-- DashMap::insert on the model. -/
def cacheInsert (c : Cache) (key v : Rgba) : Cache := (key, v) :: c

/-- Memoized::predict (src/memoize.rs:23-33) with the cache state passed
explicitly; the third component records whether the wrapped strategy was
invoked on this call. -/
def Memoized.predict (m : Mapper) (palette : List Rgbx) (cache : Cache) (pixel : Rgba) :
    Rgba × Cache × Bool :=
  match cacheGet cache pixel with
  | some v => (v, cache, false)
  | none =>
    let pred := m palette pixel
    (pred, cacheInsert cache pixel pred, true)

/-- A sequence of `Memoized::predict` calls threading the cache. -/
def Memoized.run (m : Mapper) (palette : List Rgbx) (cache : Cache) :
    List Rgba → List Rgba × Cache
  | [] => ([], cache)
  | px :: rest =>
    let s := Memoized.predict m palette cache px
    let t := Memoized.run m palette s.2.1 rest
    (s.1 :: t.1, t.2)

/-- split_and_push (src/procutils.rs:46-51): push both halves of a slice
(`left = [0, mid)`, `right = [mid, len)`, `mid = len / 2`). -/
def split_and_push {α : Type} (sl : List α) (vec : List (List α)) : List (List α) :=
  vec ++ [sl.take (sl.length / 2), sl.drop (sl.length / 2)]

/-- One pass of the subdivide loop (src/procutils.rs:37-42): each of the `len`
current parts is removed from the front in order and its two halves are pushed
at the back, which is a left fold of `split_and_push` over the current parts. -/
def subdivideRound {α : Type} (parts : List (List α)) : List (List α) :=
  parts.foldl (fun acc p => split_and_push p acc) []

/-- The iteration of `subdivideRound` for the outer `for _ in 0..times` loop. -/
def subdivideAux {α : Type} (parts : List (List α)) : Nat → List (List α)
  | 0 => parts
  | t + 1 => subdivideAux (subdivideRound parts) t

/-- subdivide (src/procutils.rs:34-44): start from the whole buffer and run
`times` rounds of midpoint splitting. -/
def subdivide {α : Type} (pixels : List α) (times : Nat) : List (List α) :=
  subdivideAux [pixels] times

/-- The per-worker computation of dispatch_and_join (src/procutils.rs:16-23):
flat_map of the predicted RGBA bytes over the worker's chunk (the progress
notification sent per pixel does not touch the output buffer). -/
def chunkRun (m : Mapper) (palette : List Rgbx) (part : List Rgba) : List Nat :=
  part.flatMap (fun px => (m palette px).toBytes)

/-- dispatch_and_join (src/procutils.rs:5-32): one worker per chunk, handles
joined in spawn order and their outputs appended in chunk order; each worker's
output is a pure function of its own chunk, so thread interleaving cannot
change the assembled buffer. -/
def dispatch_and_join (m : Mapper) (palette : List Rgbx) (parts : List (List Rgba)) : List Nat :=
  (parts.map (chunkRun m palette)).flatten

/-- Modelled from the spec: Single mode is "a sequential fold over every pixel,
strategy invoked once per pixel, no concurrency".  The `Threads::Single` (and
`Auto`/`Custom`) arms of `Processor::process` in the lib.rs under src/ are an
unwritten TODO stub, and the current-generation lib.rs that drives
src/procutils.rs is not part of the sources. -/
def singleRun (m : Mapper) (palette : List Rgbx) (pixels : List Rgba) : List Nat :=
  pixels.flatMap (fun px => (m palette px).toBytes)

/-- Modelled from the spec: the fixed-thread-count modes (`Auto`, `Custom(n)`)
"split the pixel sequence into `n` contiguous, near-equal chunks (`len / n`,
with any remainder left in the last chunk)"; this chunking code is part of the
missing current-generation lib.rs.  `chunksAux l q m` produces `m` leading
chunks of size `q` followed by the remainder chunk. -/
def chunksAux {α : Type} (l : List α) (q : Nat) : Nat → List (List α)
  | 0 => [l]
  | m + 1 => l.take q :: chunksAux (l.drop q) q m

/-- Modelled from the spec: `n` contiguous chunks of `len / n` pixels each,
remainder in the last chunk. -/
def chunksFixed {α : Type} (l : List α) (n : Nat) : List (List α) :=
  chunksAux l (l.length / n) (n - 1)

/-- Modelled from the spec: DataParallel mode hands the buffer to rayon's
`par_iter().flat_map(..).collect()` (src/lib.rs:117-122), a "library-provided
parallel map ... preserving order"; its output is the order-preserving
flat_map of the per-pixel bytes. -/
def rayonRun (m : Mapper) (palette : List Rgbx) (pixels : List Rgba) : List Nat :=
  pixels.flatMap (fun px => (m palette px).toBytes)

/-- ThreadCount::new (src/lib.rs:205-211): `Ok(val)` iff `val` is even and
nonzero, otherwise `Err(val)`. -/
def ThreadCount.new (val : Nat) : Except Nat Nat :=
  if val % 2 = 0 ∧ val ≠ 0 then .ok val else .error val

/-- `impl Default for ThreadCount` (src/lib.rs:234-238): `Self(1)`. -/
def ThreadCount.default : Nat := 1

/-- ThreadCount::calculate (src/lib.rs:213-224).  The argument models
`std::thread::available_parallelism()` (`none` = `Err`); `(c / 2) as u8` is a
mod-256 cast; the result `none` models the panic of `.unwrap()` on the
`Err` returned by `ThreadCount::new` for an odd or zero value. -/
def ThreadCount.calculate (par : Option Nat) : Option Nat :=
  match par with
  | some c =>
    if 4 ≤ c then
      match ThreadCount.new (c / 2 % 256) with
      | .ok v => some v
      | .error _ => none
    else some ThreadCount.default
  | none => some ThreadCount.default

/-- Concrete two-entry palette used by concrete instances (black and white,
the palette of the spec's concrete scenario in section 8). -/
def bwPalette : List Rgbx := [⟨0, 0, 0, .Greys⟩, ⟨255, 255, 255, .Whites⟩]

/-- Concrete two-entry training set exhibiting the voting-slice off-by-one of
Knn::classify: the nearest entry is grey, the second-nearest is red. -/
def knnCounterexampleSet : List Rgbx := [⟨0, 0, 0, .Greys⟩, ⟨3, 0, 0, .Red⟩]

/-! Helper lemmas -/

theorem wrap16_eq_self (z : Int) (h1 : -32768 ≤ z) (h2 : z < 32768) : wrap16 z = z := by
  unfold wrap16
  rw [Int.emod_eq_of_lt (by omega) (by omega)]
  omega

theorem tdiv_three (z : Int) : Int.tdiv z 3 = if 0 ≤ z then z / 3 else -(-z / 3) := by
  by_cases h : 0 ≤ z
  · rw [if_pos h, Int.tdiv_eq_ediv h (by omega)]
  · rw [if_neg h]
    have hneg : Int.tdiv z 3 = -((-z).tdiv 3) := by rw [← Int.neg_tdiv, Int.neg_neg]
    rw [hneg, Int.tdiv_eq_ediv (by omega) (by omega)]

theorem split_and_push_flatten {α : Type} (sl : List α) (vec : List (List α)) :
    (split_and_push sl vec).flatten = vec.flatten ++ sl := by
  simp [split_and_push, List.take_append_drop]

theorem subdivideRound_flatten {α : Type} (parts : List (List α)) :
    (subdivideRound parts).flatten = parts.flatten := by
  suffices h : ∀ acc : List (List α),
      (parts.foldl (fun a p => split_and_push p a) acc).flatten = acc.flatten ++ parts.flatten by
    simpa using h []
  induction parts with
  | nil => intro acc; simp
  | cons p ps ih =>
    intro acc
    rw [List.foldl_cons, ih, split_and_push_flatten, List.flatten_cons, List.append_assoc]

theorem subdivideRound_length {α : Type} (parts : List (List α)) :
    (subdivideRound parts).length = 2 * parts.length := by
  suffices h : ∀ acc : List (List α),
      (parts.foldl (fun a p => split_and_push p a) acc).length = acc.length + 2 * parts.length by
    simpa using h []
  induction parts with
  | nil => intro acc; simp
  | cons p ps ih =>
    intro acc
    rw [List.foldl_cons, ih]
    simp only [split_and_push, List.length_append, List.length_cons, List.length_nil]
    omega

theorem subdivideAux_flatten {α : Type} (t : Nat) (parts : List (List α)) :
    (subdivideAux parts t).flatten = parts.flatten := by
  induction t generalizing parts with
  | zero => rfl
  | succ t ih => rw [subdivideAux, ih, subdivideRound_flatten]

theorem subdivideAux_length {α : Type} (t : Nat) (parts : List (List α)) :
    (subdivideAux parts t).length = 2 ^ t * parts.length := by
  induction t generalizing parts with
  | zero => simp [subdivideAux]
  | succ t ih => rw [subdivideAux, ih, subdivideRound_length]; ring

theorem flatMap_of_flatten {α β : Type} (parts : List (List α)) (f : α → List β) :
    (parts.map (fun p => p.flatMap f)).flatten = parts.flatten.flatMap f := by
  induction parts with
  | nil => rfl
  | cons p ps ih => simp only [List.map_cons, List.flatten_cons, ih, List.flatten_cons,
      List.flatMap_append]

theorem chunksAux_flatten {α : Type} (q : Nat) (m : Nat) (l : List α) :
    (chunksAux l q m).flatten = l := by
  induction m generalizing l with
  | zero => simp [chunksAux]
  | succ m ih => simp [chunksAux, ih, List.take_append_drop]

theorem dispatch_and_join_eq_single (m : Mapper) (palette : List Rgbx)
    (parts : List (List Rgba)) :
    dispatch_and_join m palette parts = singleRun m palette parts.flatten := by
  unfold dispatch_and_join singleRun chunkRun
  exact flatMap_of_flatten parts _

theorem minByKeyFirst_eq_none {α β : Type} [LinearOrder β] (key : α → β) (l : List α) :
    minByKeyFirst key l = none ↔ l = [] := by
  cases l with
  | nil => simp [minByKeyFirst]
  | cons x xs =>
    cases h : minByKeyFirst key xs with
    | none => simp [minByKeyFirst, h]
    | some m =>
      simp only [minByKeyFirst, h]
      split <;> simp

theorem minByKeyFirst_spec {α β : Type} [LinearOrder β] (key : α → β) :
    ∀ l : List α, l ≠ [] →
      ∃ l1 e l2, l = l1 ++ e :: l2 ∧ minByKeyFirst key l = some e ∧
        (∀ y ∈ l, key e ≤ key y) ∧ (∀ y ∈ l1, key e < key y)
  | [], h => absurd rfl h
  | x :: xs, _ => by
    cases hxs : minByKeyFirst key xs with
    | none =>
      have hnil : xs = [] := (minByKeyFirst_eq_none key xs).mp hxs
      subst hnil
      exact ⟨[], x, [], rfl, rfl, by simp, by simp⟩
    | some m =>
      have hne : xs ≠ [] := by
        intro h
        subst h
        simp [minByKeyFirst] at hxs
      obtain ⟨l1, e, l2, hdec, hmin, hle, hlt⟩ := minByKeyFirst_spec key xs hne
      have hme : m = e := by
        rw [hxs] at hmin
        exact Option.some_inj.mp hmin
      subst hme
      by_cases hlt2 : key m < key x
      · refine ⟨x :: l1, m, l2, by rw [hdec]; rfl, ?_, ?_, ?_⟩
        · simp only [minByKeyFirst, hxs]
          rw [if_pos hlt2]
        · intro y hy
          rcases List.mem_cons.mp hy with h | h
          · subst h; exact le_of_lt hlt2
          · exact hle y h
        · intro y hy
          rcases List.mem_cons.mp hy with h | h
          · subst h; exact hlt2
          · exact hlt y h
      · refine ⟨[], x, xs, rfl, ?_, ?_, by simp⟩
        · simp only [minByKeyFirst, hxs]
          rw [if_neg hlt2]
        · intro y hy
          rcases List.mem_cons.mp hy with h | h
          · subst h; exact le_refl _
          · exact le_trans (not_lt.mp hlt2) (hle y h)

theorem maxByKeyLast_eq_none {α β : Type} [LinearOrder β] (key : α → β) (l : List α) :
    maxByKeyLast key l = none ↔ l = [] := by
  cases l with
  | nil => simp [maxByKeyLast]
  | cons x xs =>
    cases h : maxByKeyLast key xs with
    | none => simp [maxByKeyLast, h]
    | some m =>
      simp only [maxByKeyLast, h]
      split <;> simp

theorem maxByKeyLast_spec {α β : Type} [LinearOrder β] (key : α → β) :
    ∀ l : List α, l ≠ [] →
      ∃ e, maxByKeyLast key l = some e ∧ e ∈ l ∧ ∀ y ∈ l, key y ≤ key e
  | [], h => absurd rfl h
  | x :: xs, _ => by
    cases hxs : maxByKeyLast key xs with
    | none =>
      have hnil : xs = [] := (maxByKeyLast_eq_none key xs).mp hxs
      subst hnil
      refine ⟨x, rfl, List.mem_cons_self x [], ?_⟩
      intro y hy
      rcases List.mem_cons.mp hy with h | h
      · subst h; exact le_refl _
      · exact absurd h (List.not_mem_nil y)
    | some m =>
      have hne : xs ≠ [] := by
        intro h
        subst h
        simp [maxByKeyLast] at hxs
      obtain ⟨e, hmax, hmem, hge⟩ := maxByKeyLast_spec key xs hne
      have hme : m = e := by
        rw [hxs] at hmax
        exact Option.some_inj.mp hmax
      subst hme
      by_cases hlt2 : key m < key x
      · refine ⟨x, ?_, List.mem_cons_self x xs, ?_⟩
        · simp only [maxByKeyLast, hxs]
          rw [if_pos hlt2]
        · intro y hy
          rcases List.mem_cons.mp hy with h | h
          · subst h; exact le_refl _
          · exact le_trans (hge y h) (le_of_lt hlt2)
      · refine ⟨m, ?_, List.mem_cons_of_mem x hmem, ?_⟩
        · simp only [maxByKeyLast, hxs]
          rw [if_neg hlt2]
        · intro y hy
          rcases List.mem_cons.mp hy with h | h
          · subst h; exact not_lt.mp hlt2
          · exact hge y h

theorem voteKeys_foldl_mem (g : ColorClass) :
    ∀ (l acc : List ColorClass),
      (g ∈ l.foldl (fun acc g => if g ∈ acc then acc else acc ++ [g]) acc) ↔ g ∈ acc ∨ g ∈ l := by
  intro l
  induction l with
  | nil => intro acc; simp
  | cons x xs ih =>
    intro acc
    rw [List.foldl_cons]
    by_cases hx : x ∈ acc
    · rw [if_pos hx, ih]
      constructor
      · rintro (h | h)
        · exact Or.inl h
        · exact Or.inr (List.mem_cons_of_mem x h)
      · rintro (h | h)
        · exact Or.inl h
        · rcases List.mem_cons.mp h with rfl | h2
          · exact Or.inl hx
          · exact Or.inr h2
    · rw [if_neg hx, ih]
      simp only [List.mem_append, List.mem_singleton, List.mem_cons]
      tauto

theorem voteKeys_mem (l : List ColorClass) (g : ColorClass) : g ∈ voteKeys l ↔ g ∈ l := by
  unfold voteKeys
  rw [voteKeys_foldl_mem]
  simp

theorem insertByDist_length (x : Nat × ColorClass) :
    ∀ l : List (Nat × ColorClass), (insertByDist x l).length = l.length + 1 := by
  intro l
  induction l with
  | nil => rfl
  | cons y ys ih =>
    simp only [insertByDist]
    split <;> simp [ih]

theorem sortByDist_length (l : List (Nat × ColorClass)) : (sortByDist l).length = l.length := by
  unfold sortByDist
  suffices h : ∀ (l acc : List (Nat × ColorClass)),
      (l.foldl (fun acc x => insertByDist x acc) acc).length = acc.length + l.length by
    simpa using h l []
  intro l
  induction l with
  | nil => intro acc; simp
  | cons x xs ih =>
    intro acc
    rw [List.foldl_cons, ih, insertByDist_length, List.length_cons]
    omega

theorem getD_mod_mem {α : Type} (l : List α) (h : l ≠ []) (i : Nat) (d : α) :
    l.getD (i % l.length) d ∈ l := by
  have hlen : 0 < l.length := List.length_pos.mpr h
  have hmod : i % l.length < l.length := Nat.mod_lt _ hlen
  rw [List.getD_eq_getElem l d hmod]
  exact List.getElem_mem hmod

theorem list_all_congr {α : Type} (p q : α → Bool) :
    ∀ l : List α, (∀ x ∈ l, p x = q x) → l.all p = l.all q := by
  intro l
  induction l with
  | nil => intro _; rfl
  | cons x xs ih =>
    intro h
    simp only [List.all_cons]
    rw [h x (List.mem_cons_self x xs), ih (fun y hy => h y (List.mem_cons_of_mem x hy))]

theorem exists_max_key {α : Type} (f : α → Nat) :
    ∀ l : List α, l ≠ [] → ∃ g ∈ l, ∀ g' ∈ l, f g' ≤ f g
  | [], h => absurd rfl h
  | x :: xs, _ => by
    rcases eq_or_ne xs [] with rfl | hne
    · refine ⟨x, List.mem_cons_self x [], ?_⟩
      intro g' hg'
      rcases List.mem_cons.mp hg' with rfl | h2
      · exact le_refl _
      · exact absurd h2 (List.not_mem_nil g')
    · obtain ⟨m, hm, hall⟩ := exists_max_key f xs hne
      by_cases hle : f x ≤ f m
      · refine ⟨m, List.mem_cons_of_mem x hm, ?_⟩
        intro g' hg'
        rcases List.mem_cons.mp hg' with rfl | h2
        · exact hle
        · exact hall g' h2
      · refine ⟨x, List.mem_cons_self x xs, ?_⟩
        intro g' hg'
        rcases List.mem_cons.mp hg' with rfl | h2
        · exact le_refl _
        · exact le_trans (hall g' h2) (le_of_not_le hle)

theorem argmax_filter_ne_nil (score : ColorClass → Nat) (keys : List ColorClass)
    (h : keys ≠ []) :
    keys.filter (fun g => keys.all (fun g' => decide (score g' ≤ score g))) ≠ [] := by
  obtain ⟨m, hm, hall⟩ := exists_max_key score keys h
  intro hcontra
  have hmem : m ∈ keys.filter (fun g => keys.all (fun g' => decide (score g' ≤ score g))) := by
    refine List.mem_filter.mpr ⟨hm, ?_⟩
    rw [List.all_eq_true]
    intro g' hg'
    exact decide_eq_true (hall g' hg')
  rw [hcontra] at hmem
  exact absurd hmem (List.not_mem_nil m)

theorem voteSelect_congr (raw1 score1 raw2 score2 : ColorClass → Nat)
    (keys : List ColorClass) (random : Bool) (li ri : Nat)
    (hraw : ∀ g ∈ keys, raw2 g = raw1 g + 1) (hscore : ∀ g ∈ keys, score2 g = score1 g + 1) :
    voteSelect raw1 score1 keys random li ri = voteSelect raw2 score2 keys random li ri := by
  rcases eq_or_ne keys [] with rfl | hkeys
  · rfl
  · have hargmax : keys.filter (fun g => keys.all (fun g' => decide (score1 g' ≤ score1 g)))
        = keys.filter (fun g => keys.all (fun g' => decide (score2 g' ≤ score2 g))) := by
      apply List.filter_congr
      intro g hg
      apply list_all_congr
      intro g' hg'
      rw [hscore g hg, hscore g' hg']
      exact decide_eq_decide.mpr (by omega)
    simp only [voteSelect]
    rw [hargmax]
    have hargne : keys.filter (fun g => keys.all (fun g' => decide (score2 g' ≤ score2 g))) ≠ [] :=
      argmax_filter_ne_nil score2 keys hkeys
    have hLmem :
        (keys.filter (fun g => keys.all (fun g' => decide (score2 g' ≤ score2 g)))).getD
          (li % (keys.filter (fun g => keys.all (fun g' => decide (score2 g' ≤ score2 g)))).length)
          ColorClass.Blues ∈ keys := by
      have hmem := getD_mod_mem _ hargne li ColorClass.Blues
      exact (List.mem_filter.mp hmem).1
    have hcand : ∀ L ∈ keys,
        keys.filter (fun g => decide (raw1 g = score1 L) && decide (g ≠ L))
          = keys.filter (fun g => decide (raw2 g = score2 L) && decide (g ≠ L)) := by
      intro L hL
      apply List.filter_congr
      intro g hg
      rw [hraw g hg, hscore L hL]
      have : decide (raw1 g = score1 L) = decide (raw1 g + 1 = score1 L + 1) :=
        decide_eq_decide.mpr (by omega)
      rw [← this]
    rw [hcand _ hLmem]

theorem Memoized.run_spec (m : Mapper) (palette : List Rgbx) :
    ∀ (seq : List Rgba) (cache : Cache),
      (∀ px v, cacheGet cache px = some v → v = m palette px) →
      (Memoized.run m palette cache seq).1 = seq.map (m palette) ∧
      (∀ px v, cacheGet (Memoized.run m palette cache seq).2 px = some v → v = m palette px)
  | [], _, hinv => ⟨rfl, hinv⟩
  | px :: rest, cache, hinv => by
    cases hget : cacheGet cache px with
    | some v =>
      have ih := Memoized.run_spec m palette rest cache hinv
      constructor
      · simp only [Memoized.run, Memoized.predict, hget, List.map_cons]
        rw [ih.1, hinv px v hget]
      · simp only [Memoized.run, Memoized.predict, hget]
        exact ih.2
    | none =>
      have hinv' : ∀ q v, cacheGet (cacheInsert cache px (m palette px)) q = some v →
          v = m palette q := by
        intro q v hq
        by_cases hqp : px = q
        · subst hqp
          simp only [cacheInsert, cacheGet, if_pos rfl] at hq
          exact (Option.some_inj.mp hq).symm
        · simp only [cacheInsert, cacheGet, if_neg hqp] at hq
          exact hinv q v hq
      have ih := Memoized.run_spec m palette rest _ hinv'
      constructor
      · simp only [Memoized.run, Memoized.predict, hget, List.map_cons]
        rw [ih.1]
      · simp only [Memoized.run, Memoized.predict, hget]
        exact ih.2

/-! Claim theorems -/

/-- C6: for every list and every subdivision count `t`, `subdivide` returns
exactly `2 ^ t` contiguous chunks produced by repeated midpoint splitting
(`left = [0, mid)`, `right = [mid, len)`), and concatenating the returned
chunks in order yields exactly the original list, so chunked dispatch
preserves input order and total length. -/
theorem subdivide_pow2_chunks_and_flatten {α : Type} (l : List α) (t : Nat) :
    (subdivide l t).length = 2 ^ t ∧ (subdivide l t).flatten = l := by
  constructor
  · rw [subdivide, subdivideAux_length]
    simp
  · rw [subdivide, subdivideAux_flatten]
    simp

/-- C2: for a fixed deterministic strategy and a fixed palette, processing the
same pixel buffer produces byte-identical output in every concurrency mode:
the fixed-thread-count modes Auto/Custom(n) (contiguous `len / n` chunks,
remainder in the last), Extreme (`subdivide` into `2 ^ t` chunks) and
DataParallel/Rayon all coincide with Single mode, the sequential fold that
invokes the strategy once per pixel. -/
theorem modes_byte_identical (m : Mapper) (palette : List Rgbx) (pixels : List Rgba)
    (n t : Nat) (_hn : 0 < n) :
    dispatch_and_join m palette (chunksFixed pixels n) = singleRun m palette pixels ∧
    dispatch_and_join m palette (subdivide pixels t) = singleRun m palette pixels ∧
    rayonRun m palette pixels = singleRun m palette pixels := by
  refine ⟨?_, ?_, rfl⟩
  · rw [dispatch_and_join_eq_single, chunksFixed, chunksAux_flatten]
  · rw [dispatch_and_join_eq_single, subdivide, subdivideAux_flatten]
    simp

theorem modes_byte_identical_witness :
    0 < 2 ∧
    (dispatch_and_join ManualMap.predict NORD
        (chunksFixed [⟨200, 0, 0, 255⟩, ⟨10, 10, 10, 255⟩, ⟨186, 50, 50, 255⟩] 2)
        = singleRun ManualMap.predict NORD
          [⟨200, 0, 0, 255⟩, ⟨10, 10, 10, 255⟩, ⟨186, 50, 50, 255⟩] ∧
     dispatch_and_join ManualMap.predict NORD
        (subdivide [⟨200, 0, 0, 255⟩, ⟨10, 10, 10, 255⟩, ⟨186, 50, 50, 255⟩] 1)
        = singleRun ManualMap.predict NORD
          [⟨200, 0, 0, 255⟩, ⟨10, 10, 10, 255⟩, ⟨186, 50, 50, 255⟩] ∧
     rayonRun ManualMap.predict NORD [⟨200, 0, 0, 255⟩, ⟨10, 10, 10, 255⟩, ⟨186, 50, 50, 255⟩]
        = singleRun ManualMap.predict NORD
          [⟨200, 0, 0, 255⟩, ⟨10, 10, 10, 255⟩, ⟨186, 50, 50, 255⟩]) :=
  ⟨by decide,
   modes_byte_identical ManualMap.predict NORD
     [⟨200, 0, 0, 255⟩, ⟨10, 10, 10, 255⟩, ⟨186, 50, 50, 255⟩] 2 1 (by decide)⟩

/-- C5: for every deterministic strategy and fixed palette, the Memoized
wrapper is transparent: a run over any call sequence from the empty cache
returns exactly the unwrapped strategy's outputs; a cache hit returns the
stored result without invoking the wrapped strategy and leaves the cache
unchanged; a miss computes via the wrapped strategy, inserts, and returns
that result. -/
theorem memoized_transparent (m : Mapper) (palette : List Rgbx) (seq : List Rgba) :
    (Memoized.run m palette [] seq).1 = seq.map (m palette) ∧
    (∀ cache px v, cacheGet cache px = some v →
      Memoized.predict m palette cache px = (v, cache, false)) ∧
    (∀ cache px, cacheGet cache px = none →
      Memoized.predict m palette cache px =
        (m palette px, cacheInsert cache px (m palette px), true)) := by
  refine ⟨?_, ?_, ?_⟩
  · exact (Memoized.run_spec m palette seq []
      (by intro px v h; simp [cacheGet] at h)).1
  · intro cache px v h
    simp [Memoized.predict, h]
  · intro cache px h
    simp [Memoized.predict, h]

theorem memoized_transparent_witness :
    (Memoized.run ManualMap.predict NORD [] [⟨200, 0, 0, 255⟩, ⟨200, 0, 0, 255⟩]).1
      = [⟨200, 0, 0, 255⟩, ⟨200, 0, 0, 255⟩].map (ManualMap.predict NORD) ∧
    Memoized.predict ManualMap.predict NORD
        [(⟨200, 0, 0, 255⟩, ⟨208, 135, 112, 255⟩)] ⟨200, 0, 0, 255⟩
      = (⟨208, 135, 112, 255⟩, [(⟨200, 0, 0, 255⟩, ⟨208, 135, 112, 255⟩)], false) :=
  ⟨(memoized_transparent ManualMap.predict NORD [⟨200, 0, 0, 255⟩, ⟨200, 0, 0, 255⟩]).1,
   (memoized_transparent ManualMap.predict NORD []).2.1
     [(⟨200, 0, 0, 255⟩, ⟨208, 135, 112, 255⟩)] ⟨200, 0, 0, 255⟩ ⟨208, 135, 112, 255⟩
     (by decide)⟩

/-- C9: the memoization cache is keyed by the 4-byte pixel value only, not by
the palette: after a first call with pixel `px` under palette `palA` fills the
cache, a later call with the same pixel under any palette `palB` returns the
value computed under `palA` without invoking the wrapped strategy. -/
theorem memoize_ignores_palette (m : Mapper) (palA palB : List Rgbx) (cache : Cache)
    (px : Rgba) (h : cacheGet cache px = none) :
    Memoized.predict m palA cache px = (m palA px, cacheInsert cache px (m palA px), true) ∧
    Memoized.predict m palB (cacheInsert cache px (m palA px)) px
      = (m palA px, cacheInsert cache px (m palA px), false) := by
  constructor
  · simp [Memoized.predict, h]
  · simp [Memoized.predict, cacheInsert, cacheGet]

theorem memoize_ignores_palette_witness :
    Memoized.predict ManualMap.predict NORD [] ⟨200, 0, 0, 255⟩
      = (ManualMap.predict NORD ⟨200, 0, 0, 255⟩,
         cacheInsert [] ⟨200, 0, 0, 255⟩ (ManualMap.predict NORD ⟨200, 0, 0, 255⟩), true) ∧
    Memoized.predict ManualMap.predict bwPalette
        (cacheInsert [] ⟨200, 0, 0, 255⟩ (ManualMap.predict NORD ⟨200, 0, 0, 255⟩))
        ⟨200, 0, 0, 255⟩
      = (ManualMap.predict NORD ⟨200, 0, 0, 255⟩,
         cacheInsert [] ⟨200, 0, 0, 255⟩ (ManualMap.predict NORD ⟨200, 0, 0, 255⟩), false) :=
  memoize_ignores_palette ManualMap.predict NORD bwPalette [] ⟨200, 0, 0, 255⟩ (by decide)

/-- C7: for every palette color and pixel with `u8` channels, `diff_rating`
equals `(r - r') + (g - g') + (b - b') / 3` computed in exact signed integer
arithmetic (the `i16` computation never wraps), where the division by 3
truncates toward zero and applies only to the blue term before the outer sum. -/
theorem diff_rating_formula (p : Rgbx) (v : Rgba)
    (hpr : p.r < 256) (hpg : p.g < 256) (hpb : p.b < 256)
    (hvr : v.r < 256) (hvg : v.g < 256) (hvb : v.b < 256) :
    p.diff_rating v = ((p.r : Int) - (v.r : Int)) + ((p.g : Int) - (v.g : Int))
      + (if 0 ≤ (p.b : Int) - (v.b : Int) then ((p.b : Int) - (v.b : Int)) / 3
         else -(-((p.b : Int) - (v.b : Int)) / 3)) := by
  have ha := wrap16_eq_self ((p.r : Int) - (v.r : Int)) (by omega) (by omega)
  have hb := wrap16_eq_self ((p.g : Int) - (v.g : Int)) (by omega) (by omega)
  have hc := wrap16_eq_self ((p.b : Int) - (v.b : Int)) (by omega) (by omega)
  unfold Rgbx.diff_rating
  rw [ha, hb, hc, tdiv_three]
  unfold wrap16
  split <;> omega

theorem diff_rating_formula_witness :
    (Rgbx.mk 0 0 0 ColorClass.Greys).r < 256 ∧ (Rgba.mk 10 10 10 255).r < 256 ∧
    (Rgbx.mk 0 0 0 ColorClass.Greys).diff_rating (Rgba.mk 10 10 10 255)
      = (((Rgbx.mk 0 0 0 ColorClass.Greys).r : Int) - ((Rgba.mk 10 10 10 255).r : Int))
        + (((Rgbx.mk 0 0 0 ColorClass.Greys).g : Int) - ((Rgba.mk 10 10 10 255).g : Int))
        + (if 0 ≤ ((Rgbx.mk 0 0 0 ColorClass.Greys).b : Int) - ((Rgba.mk 10 10 10 255).b : Int)
           then (((Rgbx.mk 0 0 0 ColorClass.Greys).b : Int)
             - ((Rgba.mk 10 10 10 255).b : Int)) / 3
           else -(-(((Rgbx.mk 0 0 0 ColorClass.Greys).b : Int)
             - ((Rgba.mk 10 10 10 255).b : Int)) / 3)) :=
  ⟨by decide, by decide,
   diff_rating_formula (Rgbx.mk 0 0 0 ColorClass.Greys) (Rgba.mk 10 10 10 255)
     (by decide) (by decide) (by decide) (by decide) (by decide) (by decide)⟩

/-- C10: `ThreadCount::new(v)` returns `Ok` exactly when `v` is even and
nonzero; zero and every odd value (including 1, the `ThreadCount` default) are
rejected with `Err(v)`; consequently `ThreadCount::calculate`, which unwraps
`new(c / 2)` when the detected parallelism `c` is at least 4, panics whenever
`c / 2` is odd. -/
theorem thread_count_validation :
    (∀ v : Nat, (∃ t, ThreadCount.new v = .ok t) ↔ (v % 2 = 0 ∧ v ≠ 0)) ∧
    (∀ v : Nat, v % 2 = 1 ∨ v = 0 → ThreadCount.new v = .error v) ∧
    ThreadCount.default = 1 ∧
    (∀ c : Nat, 4 ≤ c → (c / 2) % 2 = 1 → ThreadCount.calculate (some c) = none) := by
  refine ⟨?_, ?_, rfl, ?_⟩
  · intro v
    constructor
    · rintro ⟨t, ht⟩
      by_cases h : v % 2 = 0 ∧ v ≠ 0
      · exact h
      · unfold ThreadCount.new at ht
        rw [if_neg h] at ht
        exact absurd ht (by simp)
    · intro h
      exact ⟨v, by unfold ThreadCount.new; rw [if_pos h]⟩
  · intro v h
    unfold ThreadCount.new
    rw [if_neg (by omega)]
  · intro c h4 hodd
    simp only [ThreadCount.calculate]
    rw [if_pos h4]
    unfold ThreadCount.new
    rw [if_neg (show ¬(c / 2 % 256 % 2 = 0 ∧ c / 2 % 256 ≠ 0) by omega)]

theorem thread_count_validation_witness :
    (∃ t, ThreadCount.new 2 = .ok t) ∧ ThreadCount.new 1 = .error 1 ∧
    ThreadCount.calculate (some 6) = none :=
  ⟨(thread_count_validation.1 2).mpr (by decide),
   thread_count_validation.2.1 1 (Or.inl (by decide)),
   thread_count_validation.2.2.2 6 (by decide) (by decide)⟩

/-- C1: for every non-empty palette and every pixel, Nearest::predict returns
the RGBA of the palette entry minimizing Manhattan distance to the pixel, with
ties broken in favor of the first such entry in palette iteration order (the
entry `e` sits after a prefix `l1` of strictly worse entries). -/
theorem nearest_predict_manhattan_min (palette : List Rgbx) (pixel : Rgba)
    (h : palette ≠ []) :
    ∃ l1 e l2, palette = l1 ++ e :: l2 ∧
      Nearest.predict palette pixel = some e.rgba_array ∧
      (∀ y ∈ palette, e.manhattan_dist pixel ≤ y.manhattan_dist pixel) ∧
      (∀ y ∈ l1, e.manhattan_dist pixel < y.manhattan_dist pixel) := by
  obtain ⟨l1, e, l2, hdec, hmin, hle, hlt⟩ :=
    minByKeyFirst_spec (fun pal => pal.manhattan_dist pixel) palette h
  refine ⟨l1, e, l2, hdec, ?_, hle, hlt⟩
  rw [Nearest.predict, hmin]
  rfl

theorem nearest_predict_manhattan_min_witness :
    ∃ l1 e l2, bwPalette = l1 ++ e :: l2 ∧
      Nearest.predict bwPalette ⟨10, 10, 10, 255⟩ = some e.rgba_array ∧
      (∀ y ∈ bwPalette, e.manhattan_dist ⟨10, 10, 10, 255⟩ ≤ y.manhattan_dist ⟨10, 10, 10, 255⟩) ∧
      (∀ y ∈ l1, e.manhattan_dist ⟨10, 10, 10, 255⟩ < y.manhattan_dist ⟨10, 10, 10, 255⟩) :=
  nearest_predict_manhattan_min bwPalette ⟨10, 10, 10, 255⟩ (by decide)

/-- C8: Knn::predict unwraps the class-restricted nearest search over the
palette, so it panics (`none`) exactly when the palette has no entry whose own
class equals the predicted class `grp`; a non-empty palette alone is not
sufficient (witnessed by a one-entry grey palette and a Red prediction), and
when a matching entry exists the panicking branch is unreachable. -/
theorem knn_predict_requires_matching_class :
    (∀ (palette : List Rgbx) (pixel : Rgba) (grp : ColorClass),
      Knn.predict palette pixel grp ≠ none ↔ ∃ e ∈ palette, e.group = grp) ∧
    Knn.predict [⟨0, 0, 0, .Greys⟩] ⟨255, 0, 0, 255⟩ .Red = none ∧
    ([⟨0, 0, 0, .Greys⟩] : List Rgbx) ≠ [] := by
  refine ⟨?_, by decide, by decide⟩
  intro palette pixel grp
  have h1 : Knn.predict palette pixel grp = none ↔
      palette.filter (fun pal => decide (pal.group = grp)) = [] := by
    unfold Knn.predict
    rw [Option.map_eq_none', minByKeyFirst_eq_none]
  rw [Ne, h1, List.filter_eq_nil_iff]
  constructor
  · intro h2
    by_contra hex
    push_neg at hex
    refine h2 ?_
    intro a ha
    simp only [decide_eq_true_eq]
    exact hex a ha
  · rintro ⟨e, he, hg⟩ hall
    exact (hall e he) (by simp [hg])

theorem knn_predict_requires_matching_class_witness :
    (Knn.predict bwPalette ⟨1, 2, 3, 255⟩ ColorClass.Greys ≠ none) ∧
    (Knn.predict bwPalette ⟨1, 2, 3, 255⟩ ColorClass.Red = none) :=
  ⟨(knn_predict_requires_matching_class.1 bwPalette ⟨1, 2, 3, 255⟩ ColorClass.Greys).mpr
     ⟨⟨0, 0, 0, .Greys⟩, by decide, rfl⟩,
   by
     by_contra hne
     exact absurd
       ((knn_predict_requires_matching_class.1 bwPalette ⟨1, 2, 3, 255⟩ ColorClass.Red).mp hne)
       (by decide)⟩

theorem creative_pos_filter_nil_iff (palette : List Rgbx) (pixel : Rgba) :
    (palette.map (fun target => (target, target.diff_rating pixel))).filter
        (fun x => decide (0 ≤ x.2)) = []
      ↔ ¬ ∃ e ∈ palette, 0 ≤ e.diff_rating pixel := by
  rw [List.filter_eq_nil_iff]
  constructor
  · rintro hall ⟨e, he, h0⟩
    exact hall (e, e.diff_rating pixel) (List.mem_map.mpr ⟨e, he, rfl⟩) (by simpa using h0)
  · intro hne x hx h0x
    obtain ⟨t, ht, rfl⟩ := List.mem_map.mp hx
    exact hne ⟨t, ht, by simpa using h0x⟩

theorem creative_neg_filter_nil_iff (palette : List Rgbx) (pixel : Rgba) :
    (palette.map (fun target => (target, target.diff_rating pixel))).filter
        (fun x => decide (x.2 ≤ 0)) = []
      ↔ ¬ ∃ e ∈ palette, e.diff_rating pixel ≤ 0 := by
  rw [List.filter_eq_nil_iff]
  constructor
  · rintro hall ⟨e, he, h0⟩
    exact hall (e, e.diff_rating pixel) (List.mem_map.mpr ⟨e, he, rfl⟩) (by simpa using h0)
  · intro hne x hx h0x
    obtain ⟨t, ht, rfl⟩ := List.mem_map.mp hx
    exact hne ⟨t, ht, by simpa using h0x⟩

theorem creative_pos_min (palette : List Rgbx) (pixel : Rgba)
    (hne : (palette.map (fun target => (target, target.diff_rating pixel))).filter
        (fun x => decide (0 ≤ x.2)) ≠ []) :
    ∃ t ∈ palette, 0 ≤ t.diff_rating pixel ∧
      (∀ e ∈ palette, 0 ≤ e.diff_rating pixel → t.diff_rating pixel ≤ e.diff_rating pixel) ∧
      minByKeyFirst (fun x : Rgbx × Int => x.2)
        ((palette.map (fun target => (target, target.diff_rating pixel))).filter
          (fun x => decide (0 ≤ x.2))) = some (t, t.diff_rating pixel) := by
  obtain ⟨l1, xm, l2, hdec, hmin, hle, _⟩ :=
    minByKeyFirst_spec (fun x : Rgbx × Int => x.2) _ hne
  have hxm_mem : xm ∈ (palette.map (fun target => (target, target.diff_rating pixel))).filter
      (fun x => decide (0 ≤ x.2)) := by
    rw [hdec]
    exact List.mem_append_right _ (List.mem_cons_self _ _)
  have hfm := List.mem_filter.mp hxm_mem
  obtain ⟨t, ht, rfl⟩ := List.mem_map.mp hfm.1
  refine ⟨t, ht, by simpa using hfm.2, ?_, hmin⟩
  intro e he h0
  have hmem : (e, e.diff_rating pixel) ∈
      (palette.map (fun target => (target, target.diff_rating pixel))).filter
        (fun x => decide (0 ≤ x.2)) :=
    List.mem_filter.mpr ⟨List.mem_map.mpr ⟨e, he, rfl⟩, by simpa using h0⟩
  exact hle _ hmem

theorem creative_neg_max (palette : List Rgbx) (pixel : Rgba)
    (hne : (palette.map (fun target => (target, target.diff_rating pixel))).filter
        (fun x => decide (x.2 ≤ 0)) ≠ []) :
    ∃ t ∈ palette, t.diff_rating pixel ≤ 0 ∧
      (∀ e ∈ palette, e.diff_rating pixel ≤ 0 → e.diff_rating pixel ≤ t.diff_rating pixel) ∧
      maxByKeyLast (fun x : Rgbx × Int => x.2)
        ((palette.map (fun target => (target, target.diff_rating pixel))).filter
          (fun x => decide (x.2 ≤ 0))) = some (t, t.diff_rating pixel) := by
  obtain ⟨xm, hmax, hxm_mem, hge⟩ := maxByKeyLast_spec (fun x : Rgbx × Int => x.2) _ hne
  have hfm := List.mem_filter.mp hxm_mem
  obtain ⟨t, ht, rfl⟩ := List.mem_map.mp hfm.1
  refine ⟨t, ht, by simpa using hfm.2, ?_, hmax⟩
  intro e he h0
  have hmem : (e, e.diff_rating pixel) ∈
      (palette.map (fun target => (target, target.diff_rating pixel))).filter
        (fun x => decide (x.2 ≤ 0)) :=
    List.mem_filter.mpr ⟨List.mem_map.mpr ⟨e, he, rfl⟩, by simpa using h0⟩
  exact hge _ hmem

/-- C4: for every palette and pixel, Creative::predict computes diff_rating for
every entry, takes the minimum among entries with rating at least 0 and the
maximum among entries with rating at most 0, returns the negative-side entry
exactly when the negated negative rating is strictly below the positive rating
(a tie favours the positive side); with only one side populated that side's
entry is returned, and with neither side populated the pixel is returned
unchanged. -/
theorem creative_predict_sides (palette : List Rgbx) (pixel : Rgba) :
    ((¬ ∃ e ∈ palette, 0 ≤ e.diff_rating pixel) ∧ (¬ ∃ e ∈ palette, e.diff_rating pixel ≤ 0) →
      Creative.predict palette pixel = pixel) ∧
    ((∃ e ∈ palette, 0 ≤ e.diff_rating pixel) ∧ (¬ ∃ e ∈ palette, e.diff_rating pixel ≤ 0) →
      ∃ ep ∈ palette, 0 ≤ ep.diff_rating pixel ∧
        (∀ e ∈ palette, 0 ≤ e.diff_rating pixel → ep.diff_rating pixel ≤ e.diff_rating pixel) ∧
        Creative.predict palette pixel = ep.rgba_array) ∧
    ((¬ ∃ e ∈ palette, 0 ≤ e.diff_rating pixel) ∧ (∃ e ∈ palette, e.diff_rating pixel ≤ 0) →
      ∃ en ∈ palette, en.diff_rating pixel ≤ 0 ∧
        (∀ e ∈ palette, e.diff_rating pixel ≤ 0 → e.diff_rating pixel ≤ en.diff_rating pixel) ∧
        Creative.predict palette pixel = en.rgba_array) ∧
    ((∃ e ∈ palette, 0 ≤ e.diff_rating pixel) ∧ (∃ e ∈ palette, e.diff_rating pixel ≤ 0) →
      ∃ ep ∈ palette, ∃ en ∈ palette, 0 ≤ ep.diff_rating pixel ∧ en.diff_rating pixel ≤ 0 ∧
        (∀ e ∈ palette, 0 ≤ e.diff_rating pixel → ep.diff_rating pixel ≤ e.diff_rating pixel) ∧
        (∀ e ∈ palette, e.diff_rating pixel ≤ 0 → e.diff_rating pixel ≤ en.diff_rating pixel) ∧
        Creative.predict palette pixel =
          (if -(en.diff_rating pixel) < ep.diff_rating pixel then en.rgba_array
           else ep.rgba_array)) := by
  refine ⟨?_, ?_, ?_, ?_⟩
  · rintro ⟨hnp, hnn⟩
    have hpf := (creative_pos_filter_nil_iff palette pixel).mpr hnp
    have hnf := (creative_neg_filter_nil_iff palette pixel).mpr hnn
    simp only [Creative.predict]
    rw [hpf, hnf]
    rfl
  · rintro ⟨hp, hnn⟩
    have hposne : (palette.map (fun target => (target, target.diff_rating pixel))).filter
        (fun x => decide (0 ≤ x.2)) ≠ [] := by
      intro hnil
      exact (creative_pos_filter_nil_iff palette pixel).mp hnil hp
    have hnf := (creative_neg_filter_nil_iff palette pixel).mpr hnn
    obtain ⟨t, ht, h0, hminimal, hmin⟩ := creative_pos_min palette pixel hposne
    refine ⟨t, ht, h0, hminimal, ?_⟩
    simp only [Creative.predict]
    rw [hmin, hnf]
    rfl
  · rintro ⟨hnp, hn⟩
    have hnegne : (palette.map (fun target => (target, target.diff_rating pixel))).filter
        (fun x => decide (x.2 ≤ 0)) ≠ [] := by
      intro hnil
      exact (creative_neg_filter_nil_iff palette pixel).mp hnil hn
    have hpf := (creative_pos_filter_nil_iff palette pixel).mpr hnp
    obtain ⟨t, ht, h0, hmaximal, hmax⟩ := creative_neg_max palette pixel hnegne
    refine ⟨t, ht, h0, hmaximal, ?_⟩
    simp only [Creative.predict]
    rw [hmax, hpf]
    rfl
  · rintro ⟨hp, hn⟩
    have hposne : (palette.map (fun target => (target, target.diff_rating pixel))).filter
        (fun x => decide (0 ≤ x.2)) ≠ [] := by
      intro hnil
      exact (creative_pos_filter_nil_iff palette pixel).mp hnil hp
    have hnegne : (palette.map (fun target => (target, target.diff_rating pixel))).filter
        (fun x => decide (x.2 ≤ 0)) ≠ [] := by
      intro hnil
      exact (creative_neg_filter_nil_iff palette pixel).mp hnil hn
    obtain ⟨tp, htp, h0p, hminimal, hmin⟩ := creative_pos_min palette pixel hposne
    obtain ⟨tn, htn, h0n, hmaximal, hmax⟩ := creative_neg_max palette pixel hnegne
    refine ⟨tp, htp, tn, htn, h0p, h0n, hminimal, hmaximal, ?_⟩
    simp only [Creative.predict]
    rw [hmin, hmax]

theorem creative_predict_sides_witness :
    ((∃ e ∈ bwPalette, 0 ≤ e.diff_rating ⟨10, 10, 10, 255⟩) ∧
      (∃ e ∈ bwPalette, e.diff_rating ⟨10, 10, 10, 255⟩ ≤ 0)) ∧
    (∃ ep ∈ bwPalette, ∃ en ∈ bwPalette,
      0 ≤ ep.diff_rating ⟨10, 10, 10, 255⟩ ∧ en.diff_rating ⟨10, 10, 10, 255⟩ ≤ 0 ∧
      (∀ e ∈ bwPalette, 0 ≤ e.diff_rating ⟨10, 10, 10, 255⟩ →
        ep.diff_rating ⟨10, 10, 10, 255⟩ ≤ e.diff_rating ⟨10, 10, 10, 255⟩) ∧
      (∀ e ∈ bwPalette, e.diff_rating ⟨10, 10, 10, 255⟩ ≤ 0 →
        e.diff_rating ⟨10, 10, 10, 255⟩ ≤ en.diff_rating ⟨10, 10, 10, 255⟩) ∧
      Creative.predict bwPalette ⟨10, 10, 10, 255⟩ =
        (if -(en.diff_rating ⟨10, 10, 10, 255⟩) < ep.diff_rating ⟨10, 10, 10, 255⟩
         then en.rgba_array else ep.rgba_array)) :=
  ⟨⟨by decide, by decide⟩,
   (creative_predict_sides bwPalette ⟨10, 10, 10, 255⟩).2.2.2 ⟨by decide, by decide⟩⟩

/-- C3 (amended): Knn::classify votes among exactly the `k + 1` nearest
training entries by Euclidean distance (the slice `ratings[..=k]` after
sorting), not `k`, for every choice of the nondeterminism parameters; and the
default `k` is 12 when none is supplied.  The vote over the slice with the
source's shifted stored counts (`or_insert(0)`) selects the same class as the
true occurrence counts of the specification vote. -/
theorem knn_votes_k_plus_one (c : Rgba) (k : Nat) (dataset : List Rgbx)
    (random weighted : Bool) (leaderIdx rngIdx : Nat) (hk : k < dataset.length) :
    Knn.classify c k dataset random weighted leaderIdx rngIdx
      = knnVoteSpec c (k + 1) dataset random weighted leaderIdx rngIdx ∧
    Knn.default.k = 12 := by
  refine ⟨?_, rfl⟩
  have hlen : (sortByDist (dataset.map (fun pal => (pal.euclidian_dist_sq c, pal.group)))).length
      = dataset.length := by
    rw [sortByDist_length, List.length_map]
  simp only [Knn.classify, knnVoteSpec]
  rw [if_pos (show k < (sortByDist (dataset.map
        (fun pal => (pal.euclidian_dist_sq c, pal.group)))).length by rw [hlen]; exact hk),
      if_pos (show k + 1 ≤ (sortByDist (dataset.map
        (fun pal => (pal.euclidian_dist_sq c, pal.group)))).length by rw [hlen]; omega)]
  refine congrArg some ?_
  apply voteSelect_congr
  · intro g hg
    have hgmem : g ∈ ((sortByDist (dataset.map
        (fun pal => (pal.euclidian_dist_sq c, pal.group)))).take (k + 1)).map
          (fun x => x.2) := (voteKeys_mem _ g).mp hg
    have hcount := List.count_pos_iff.mpr hgmem
    omega
  · intro g hg
    have hgmem : g ∈ ((sortByDist (dataset.map
        (fun pal => (pal.euclidian_dist_sq c, pal.group)))).take (k + 1)).map
          (fun x => x.2) := (voteKeys_mem _ g).mp hg
    have hcount := List.count_pos_iff.mpr hgmem
    by_cases hw : weighted
    · simp only [hw, if_pos]
      omega
    · simp only [hw, if_neg, Bool.false_eq_true, ite_false]
      omega

theorem knn_votes_k_plus_one_witness :
    1 < knnCounterexampleSet.length ∧
    (Knn.classify ⟨0, 0, 0, 255⟩ 1 knnCounterexampleSet true false 0 0
        = knnVoteSpec ⟨0, 0, 0, 255⟩ 2 knnCounterexampleSet true false 0 0 ∧
      Knn.default.k = 12) :=
  ⟨by decide,
   knn_votes_k_plus_one ⟨0, 0, 0, 255⟩ 1 knnCounterexampleSet true false 0 0 (by decide)⟩

/-- C3 counterexample: with the two-entry training set whose nearest entry is
Greys and second-nearest is Red, `k = 1`, and nondeterminism indices 0, the
source's classification (voting over the `k + 1 = 2` nearest entries) returns
Red, while voting among exactly the `k = 1` nearest entries as the claim
states returns Greys — so classification does not vote among the `k` nearest
entries. -/
theorem knn_vote_slice_counterexample :
    Knn.classify ⟨0, 0, 0, 255⟩ 1 knnCounterexampleSet true false 0 0
      ≠ knnVoteSpec ⟨0, 0, 0, 255⟩ 1 knnCounterexampleSet true false 0 0 ∧
    Knn.classify ⟨0, 0, 0, 255⟩ 1 knnCounterexampleSet true false 0 0 = some ColorClass.Red ∧
    knnVoteSpec ⟨0, 0, 0, 255⟩ 1 knnCounterexampleSet true false 0 0 = some ColorClass.Greys :=
  ⟨by decide, by decide, by decide⟩
